import Mathlib

/-!
Verification of the SOM training and labeling engine of
`ark/phenotyping/cluster.py` (self-organizing-map pixel clustering).

The Python functions `decay_function`, `winner`, `update`, `train_som` and
`cluster_som` are shallowly embedded here.  Machine floats are modelled as
exact numbers: the pure-arithmetic parts (`decay_function`, the distance
computations of `winner`, the label bookkeeping of `cluster_som`) are stated
polymorphically over a linear ordered field and instantiated at `ℚ` so they
are executable, while the parts that use `exp`, `π` and `sqrt`
(`update`, the normalization in `train_som`) live over `ℝ`.
-/

section DecaySchedule

variable {α : Type} [LinearOrderedField α]

/-- Embedding of `decay_function(param, t, num_iters)` from
`ark/phenotyping/cluster.py`: `param / (1 + t / (num_iters / 2))`.
Python's `/` is float division, so `num_iters / 2` is `num_iters/2` in the
field (not integer division). -/
def decay_function (param : α) (t : ℕ) (num_iters : ℕ) : α :=
  param / (1 + (t : α) / ((num_iters : α) / 2))

/-- For `num_iters ≥ 1` the denominator of `decay_function` is at least 1. -/
lemma decay_denom_ge_one {t num_iters : ℕ} (hn : 1 ≤ num_iters) :
    (1 : α) ≤ 1 + (t : α) / ((num_iters : α) / 2) := by
  have hnpos : (0 : α) < (num_iters : α) / 2 := by
    have : (1 : α) ≤ (num_iters : α) := by exact_mod_cast hn
    linarith
  have : (0 : α) ≤ (t : α) / ((num_iters : α) / 2) :=
    div_nonneg (by positivity) (le_of_lt hnpos)
  linarith

/-- For `num_iters ≥ 1` and `param > 0`, `decay_function` is strictly
positive. -/
lemma decay_pos {param : α} {t num_iters : ℕ} (hp : 0 < param)
    (hn : 1 ≤ num_iters) : 0 < decay_function param t num_iters := by
  have h1 : (1 : α) ≤ 1 + (t : α) / ((num_iters : α) / 2) := decay_denom_ge_one hn
  exact div_pos hp (lt_of_lt_of_le one_pos h1)

/-- `decay_function` is antitone in the step index `t`. -/
lemma decay_antitone {param : α} {num_iters : ℕ} (hp : 0 < param)
    (hn : 1 ≤ num_iters) {t1 t2 : ℕ} (h : t1 ≤ t2) :
    decay_function param t2 num_iters ≤ decay_function param t1 num_iters := by
  unfold decay_function
  have h1 : (1 : α) ≤ 1 + (t1 : α) / ((num_iters : α) / 2) := decay_denom_ge_one hn
  have hmono : (1 : α) + (t1 : α) / ((num_iters : α) / 2)
      ≤ 1 + (t2 : α) / ((num_iters : α) / 2) := by
    have hnpos : (0 : α) < (num_iters : α) / 2 := by
      have : (1 : α) ≤ (num_iters : α) := by exact_mod_cast hn
      linarith
    have ht : (t1 : α) ≤ (t2 : α) := by exact_mod_cast h
    have := div_le_div_of_nonneg_right ht (le_of_lt hnpos)
    linarith
  exact div_le_div_of_nonneg_left (le_of_lt hp) (lt_of_lt_of_le one_pos h1) hmono

end DecaySchedule

/-- C6: for `param > 0` and `num_iters ≥ 1`, `decay_function` matches the
contract `param / (1 + t / (num_iters / 2))`, equals `param` at `t = 0`, is
monotonically non-increasing in `t`, and its denominator is nonzero for every
`t` (in particular for `num_iters = 1`, so the Python division never raises). -/
theorem decay_contract (param : ℚ) (num_iters : ℕ) (hp : 0 < param)
    (hn : 1 ≤ num_iters) :
    (∀ t : ℕ, decay_function param t num_iters
        = param / (1 + (t : ℚ) / ((num_iters : ℚ) / 2)))
    ∧ decay_function param 0 num_iters = param
    ∧ (∀ t1 t2 : ℕ, t1 ≤ t2 →
        decay_function param t2 num_iters ≤ decay_function param t1 num_iters)
    ∧ (∀ t : ℕ, (1 : ℚ) + (t : ℚ) / ((num_iters : ℚ) / 2) ≠ 0) := by
  refine ⟨fun t => rfl, ?_, fun t1 t2 h => decay_antitone hp hn h, fun t => ?_⟩
  · unfold decay_function
    simp
  · have h1 : (1 : ℚ) ≤ 1 + (t : ℚ) / ((num_iters : ℚ) / 2) :=
      decay_denom_ge_one hn
    exact ne_of_gt (lt_of_lt_of_le one_pos h1)

/-- Witness for C6 at `param = 3`, `num_iters = 1`. -/
theorem decay_contract_witness :
    (0 : ℚ) < 3 ∧ (1 : ℕ) ≤ 1 ∧
      ((∀ t : ℕ, decay_function (3 : ℚ) t 1
          = 3 / (1 + (t : ℚ) / ((1 : ℚ) / 2)))
      ∧ decay_function (3 : ℚ) 0 1 = 3
      ∧ (∀ t1 t2 : ℕ, t1 ≤ t2 →
          decay_function (3 : ℚ) t2 1 ≤ decay_function (3 : ℚ) t1 1)
      ∧ (∀ t : ℕ, (1 : ℚ) + (t : ℚ) / ((1 : ℚ) / 2) ≠ 0)) :=
  ⟨by decide, le_refl 1, decay_contract 3 1 (by decide) (le_refl 1)⟩

section TotalIndexing

variable {γ : Type}

/-- Total list indexing with an explicit default, used throughout to state
entry-level facts about the embedded arrays. -/
def nthD : List γ → ℕ → γ → γ
  | [], _, d => d
  | x :: _, 0, _ => x
  | _ :: xs, n + 1, d => nthD xs n d

@[simp] lemma nthD_nil (n : ℕ) (d : γ) : nthD [] n d = d := rfl

@[simp] lemma nthD_cons_zero (x : γ) (l : List γ) (d : γ) :
    nthD (x :: l) 0 d = x := rfl

@[simp] lemma nthD_cons_succ (x : γ) (l : List γ) (n : ℕ) (d : γ) :
    nthD (x :: l) (n + 1) d = nthD l n d := rfl

end TotalIndexing

section NearestPrototype

variable {α : Type} [LinearOrderedField α]

/-- A prototype grid of shape `(X, Y, C)`: `X` rows, each of `Y` prototype
vectors, each of `C` channel values (numpy array `weights`). -/
abbrev Grid (α : Type) := List (List (List α))

/-- Shape predicate for a grid: `w.length = X`, every row has length `Y`,
every prototype has length `C`. -/
def GridShape (w : Grid α) (X Y C : ℕ) : Prop :=
  w.length = X ∧ ∀ r ∈ w, r.length = Y ∧ ∀ p ∈ r, p.length = C

instance (w : Grid α) (X Y C : ℕ) : Decidable (GridShape w X Y C) := by
  unfold GridShape; infer_instance

/-- Elementwise subtraction with numpy broadcasting on the channel axis, as
performed by `np.subtract(sample, w)` for a 1-D `sample` against the last
axis of `weights`: equal lengths subtract pointwise; a length-1 operand is
stretched to the other's length. -/
def bsub (s p : List α) : List α :=
  if s.length = p.length then List.zipWith (fun a b => a - b) s p
  else if s.length = 1 then p.map (fun b => s.headD 0 - b)
  else s.map (fun a => a - p.headD 0)

/-- Squared Euclidean distance between a sample and one prototype, i.e. the
square of the value `np.linalg.norm` computes for that prototype in
`winner`.  The `argmin` in `winner` is taken over the norms; since `sqrt`
is strictly monotone, taking it over the squared norms selects the same
index, which lets the grid search stay executable (`euclidNorm` below
restores the actual root for the distance-minimality statements). -/
def sqDist (s p : List α) : α := ((bsub s p).map (fun z => z ^ 2)).sum

/-- The activation map of `winner`: the `(X, Y)` matrix of distances between
`sample` and every prototype (squared, see `sqDist`). -/
def activationMap (sample : List α) (w : Grid α) : List (List α) :=
  w.map (fun r => r.map (fun p => sqDist sample p))

/-- Index of the first occurrence of the minimum of a list — the semantics
of `numpy.argmin` on the flattened activation map (`0` on `[]`, where numpy
would raise; `winner` only reaches it on a non-empty grid). -/
def argminIdx : List α → ℕ
  | [] => 0
  | [_] => 0
  | x :: y :: ys =>
    let j := argminIdx (y :: ys)
    if nthD (y :: ys) j 0 < x then j + 1 else 0

lemma argminIdx_cons_cons (x y : α) (ys : List α) :
    argminIdx (x :: y :: ys)
      = if nthD (y :: ys) (argminIdx (y :: ys)) 0 < x
        then argminIdx (y :: ys) + 1 else 0 := rfl

/-- Core of `winner(sample, weights)`: build the activation map, take the
row-major `argmin` of its flattened form, and `np.unravel_index` the flat
index back to `(i / Y, i % Y)` for the map's shape `(X, Y)`. -/
def winnerCoords (sample : List α) (weights : Grid α) : ℕ × ℕ :=
  let a := activationMap sample weights
  let yDim := (a.headD []).length
  let i := argminIdx a.flatten
  (i / yDim, i % yDim)

/-- Channel count of a grid: the length of its last axis. -/
def numChans (w : Grid α) : ℕ := ((w.headD []).headD []).length

/-- Embedding of `winner(sample, weights)` including its failure mode:
`np.subtract(sample, weights)` succeeds exactly when the sample's length is
broadcast-compatible with the grid's channel axis (equal, or either side of
length 1); otherwise numpy raises and `winner` fails, modelled as `none`. -/
def winner (sample : List α) (weights : Grid α) : Option (ℕ × ℕ) :=
  if sample.length = numChans weights ∨ sample.length = 1 ∨ numChans weights = 1
  then some (winnerCoords sample weights)
  else none

/-- On a non-empty list, `argminIdx` is in bounds. -/
lemma argminIdx_lt_length : ∀ (l : List α), l ≠ [] → argminIdx l < l.length
  | [], h => absurd rfl h
  | [_], _ => Nat.zero_lt_one
  | x :: y :: ys, _ => by
    rw [argminIdx_cons_cons]
    by_cases hc : nthD (y :: ys) (argminIdx (y :: ys)) 0 < x
    · rw [if_pos hc]
      exact Nat.succ_lt_succ (argminIdx_lt_length (y :: ys) (by simp))
    · rw [if_neg hc]
      exact Nat.succ_pos _

/-- The value at `argminIdx` is a lower bound for every entry. -/
lemma argminIdx_le : ∀ (l : List α), ∀ j < l.length,
    nthD l (argminIdx l) 0 ≤ nthD l j 0
  | [], j, hj => by simp at hj
  | [x], j, hj => by
    have : j = 0 := Nat.lt_one_iff.mp (by simpa using hj)
    subst this
    simp [argminIdx]
  | x :: y :: ys, j, hj => by
    have ih := argminIdx_le (y :: ys)
    rw [argminIdx_cons_cons]
    by_cases hc : nthD (y :: ys) (argminIdx (y :: ys)) 0 < x
    · rw [if_pos hc]
      rw [nthD_cons_succ]
      match j with
      | 0 => simpa using le_of_lt hc
      | k + 1 =>
        have hk : k < (y :: ys).length := Nat.lt_of_succ_lt_succ hj
        simpa using ih k hk
    · rw [if_neg hc]
      push_neg at hc
      match j with
      | 0 => simp
      | k + 1 =>
        have hk : k < (y :: ys).length := Nat.lt_of_succ_lt_succ hj
        calc nthD (x :: y :: ys) 0 0 = x := rfl
          _ ≤ nthD (y :: ys) (argminIdx (y :: ys)) 0 := hc
          _ ≤ nthD (y :: ys) k 0 := ih k hk
          _ = nthD (x :: y :: ys) (k + 1) 0 := by simp

/-- Entries strictly before `argminIdx` are strictly greater than the
minimum: `argminIdx` is the FIRST index attaining the minimum, matching
`numpy.argmin` tie-breaking. -/
lemma argminIdx_first : ∀ (l : List α), ∀ j < argminIdx l,
    nthD l (argminIdx l) 0 < nthD l j 0
  | [], j, hj => by simp [argminIdx] at hj
  | [_], j, hj => by simp [argminIdx] at hj
  | x :: y :: ys, j, hj => by
    have ih := argminIdx_first (y :: ys)
    rw [argminIdx_cons_cons] at hj ⊢
    by_cases hc : nthD (y :: ys) (argminIdx (y :: ys)) 0 < x
    · rw [if_pos hc] at hj ⊢
      rw [nthD_cons_succ]
      match j with
      | 0 => simpa using hc
      | k + 1 =>
        have hk : k < argminIdx (y :: ys) := Nat.lt_of_succ_lt_succ hj
        simpa using ih k hk
    · rw [if_neg hc] at hj
      exact absurd hj (Nat.not_lt_zero j)

end NearestPrototype

section WinnerCorrect

variable {α : Type} [LinearOrderedField α]

lemma nthD_append_left {β : Type} (l l2 : List β) (d : β) :
    ∀ i, i < l.length → nthD (l ++ l2) i d = nthD l i d := by
  induction l with
  | nil => intro i hi; simp at hi
  | cons x xs ih =>
    intro i hi
    match i with
    | 0 => rfl
    | k + 1 => simpa using ih k (Nat.lt_of_succ_lt_succ hi)

lemma nthD_append_right {β : Type} (l l2 : List β) (d : β) (i : ℕ) :
    nthD (l ++ l2) (l.length + i) d = nthD l2 i d := by
  induction l with
  | nil => simp
  | cons x xs ih => simpa [Nat.succ_add] using ih

lemma nthD_map {β γ : Type} (f : β → γ) (l : List β) (d : γ) (d' : β) :
    ∀ i, i < l.length → nthD (l.map f) i d = f (nthD l i d') := by
  induction l with
  | nil => intro i hi; simp at hi
  | cons x xs ih =>
    intro i hi
    match i with
    | 0 => rfl
    | k + 1 => simpa using ih k (Nat.lt_of_succ_lt_succ hi)

lemma nthD_mem {β : Type} (l : List β) (d : β) :
    ∀ i, i < l.length → nthD l i d ∈ l := by
  induction l with
  | nil => intro i hi; simp at hi
  | cons x xs ih =>
    intro i hi
    match i with
    | 0 => exact List.mem_cons_self x xs
    | k + 1 => exact List.mem_cons_of_mem x (ih k (Nat.lt_of_succ_lt_succ hi))

lemma flatten_length_uniform {β : Type} {Y : ℕ} :
    ∀ (a : List (List β)), (∀ r ∈ a, r.length = Y) →
      a.flatten.length = a.length * Y := by
  intro a
  induction a with
  | nil => intro _; simp
  | cons r rs ih =>
    intro h
    have hr : r.length = Y := h r (List.mem_cons_self r rs)
    have hrs := ih (fun q hq => h q (List.mem_cons_of_mem r hq))
    simp [List.flatten_cons, hr, hrs, Nat.succ_mul, Nat.add_comm]

lemma flatten_nthD_uniform {β : Type} {Y : ℕ} (d : β) :
    ∀ (a : List (List β)) (x y : ℕ), (∀ r ∈ a, r.length = Y) →
      x < a.length → y < Y →
      nthD a.flatten (x * Y + y) d = nthD (nthD a x []) y d := by
  intro a
  induction a with
  | nil => intro x y _ hx; simp at hx
  | cons r rs ih =>
    intro x y h hx hy
    have hr : r.length = Y := h r (List.mem_cons_self r rs)
    match x with
    | 0 =>
      rw [List.flatten_cons, Nat.zero_mul, Nat.zero_add,
        nthD_append_left r rs.flatten d y (by rw [hr]; exact hy)]
      rfl
    | k + 1 =>
      have hidx : (k + 1) * Y + y = r.length + (k * Y + y) := by
        rw [hr]; ring
      rw [List.flatten_cons, hidx, nthD_append_right]
      have := ih k y (fun q hq => h q (List.mem_cons_of_mem r hq))
        (Nat.lt_of_succ_lt_succ hx) hy
      simpa using this

/-- The prototype vector at grid coordinate `(x, y)`. -/
def protoAt (w : Grid α) (x y : ℕ) : List α := nthD (nthD w x []) y []

lemma activationMap_length (sample : List α) (w : Grid α) :
    (activationMap sample w).length = w.length := by
  simp [activationMap]

lemma activationMap_rows (sample : List α) (w : Grid α) {X Y C : ℕ}
    (hs : GridShape w X Y C) :
    ∀ r ∈ activationMap sample w, r.length = Y := by
  intro r hr
  rcases List.mem_map.mp hr with ⟨q, hq, rfl⟩
  simp [(hs.2 q hq).1]

lemma activationMap_entry (sample : List α) (w : Grid α) {X Y C : ℕ}
    (hs : GridShape w X Y C) (x y : ℕ) (hx : x < X) (hy : y < Y) :
    nthD (nthD (activationMap sample w) x []) y 0
      = sqDist sample (protoAt w x y) := by
  have hxw : x < w.length := by rw [hs.1]; exact hx
  have hrow : nthD (activationMap sample w) x []
      = (nthD w x []).map (fun p => sqDist sample p) := by
    simpa [activationMap] using
      nthD_map (fun r => r.map (fun p => sqDist sample p)) w [] [] x hxw
  rw [hrow]
  have hmem : nthD w x [] ∈ w := nthD_mem w [] x hxw
  have hylen : y < (nthD w x []).length := by
    rw [(hs.2 _ hmem).1]; exact hy
  simpa [protoAt] using nthD_map (fun p => sqDist sample p) (nthD w x []) 0 [] y hylen

lemma numChans_eq {w : Grid α} {X Y C : ℕ} (hs : GridShape w X Y C)
    (hX : 1 ≤ X) (hY : 1 ≤ Y) : numChans w = C := by
  match w, hs with
  | [], ⟨h1, _⟩ => rw [← h1] at hX; simp at hX
  | r :: rs, ⟨h1, h2⟩ =>
    have hr := h2 r (List.mem_cons_self r rs)
    match r, hr with
    | [], ⟨hrl, _⟩ => rw [← hrl] at hY; simp at hY
    | p :: ps, ⟨_, h3⟩ =>
      simpa [numChans] using h3 p (List.mem_cons_self p ps)

/-- Full characterisation of the coordinate returned by the grid search: it
is in bounds, its prototype attains the minimal (squared) distance, and on
ties its flattened row-major index is least. -/
lemma winnerCoords_spec (sample : List α) (w : Grid α) {X Y C : ℕ}
    (hs : GridShape w X Y C) (hX : 1 ≤ X) (hY : 1 ≤ Y) :
    (winnerCoords sample w).1 < X ∧ (winnerCoords sample w).2 < Y ∧
    (∀ x, x < X → ∀ y, y < Y →
      sqDist sample (protoAt w (winnerCoords sample w).1 (winnerCoords sample w).2)
        ≤ sqDist sample (protoAt w x y)) ∧
    (∀ x, x < X → ∀ y, y < Y →
      sqDist sample (protoAt w x y)
          = sqDist sample (protoAt w (winnerCoords sample w).1 (winnerCoords sample w).2) →
      (winnerCoords sample w).1 * Y + (winnerCoords sample w).2 ≤ x * Y + y) := by
  have hY0 : 0 < Y := hY
  set a := activationMap sample w with ha
  have halen : a.length = X := by rw [ha, activationMap_length, hs.1]
  have harows : ∀ r ∈ a, r.length = Y := activationMap_rows sample w hs
  have hhead : (a.headD []).length = Y := by
    match a, halen with
    | [], h => rw [← h] at hX; simp at hX
    | r :: rs, _ => exact harows r (List.mem_cons_self r rs)
  have hflatlen : a.flatten.length = X * Y := by
    rw [flatten_length_uniform a harows, halen]
  have hflatpos : a.flatten ≠ [] := by
    have : 0 < a.flatten.length := by
      rw [hflatlen]; exact Nat.mul_pos hX hY0
    exact List.ne_nil_of_length_pos this
  set i := argminIdx a.flatten with hi
  have hilt : i < X * Y := by
    rw [← hflatlen]; exact argminIdx_lt_length a.flatten hflatpos
  have hcoords : winnerCoords sample w = (i / Y, i % Y) := by
    rw [winnerCoords]
    simp only [← ha, hhead, ← hi]
  have hc1 : (winnerCoords sample w).1 = i / Y := by rw [hcoords]
  have hc2 : (winnerCoords sample w).2 = i % Y := by rw [hcoords]
  have hwx : i / Y < X := Nat.div_lt_iff_lt_mul hY0 |>.mpr hilt
  have hwy : i % Y < Y := Nat.mod_lt i hY0
  have hentry : ∀ x, x < X → ∀ y, y < Y →
      nthD a.flatten (x * Y + y) 0 = sqDist sample (protoAt w x y) := by
    intro x hx y hy
    rw [flatten_nthD_uniform 0 a x y harows (by rw [halen]; exact hx) hy]
    exact activationMap_entry sample w hs x y hx hy
  have hidx : i / Y * Y + i % Y = i := by
    rw [Nat.mul_comm]; exact Nat.div_add_mod i Y
  have hflatw : nthD a.flatten i 0 = sqDist sample (protoAt w (i / Y) (i % Y)) := by
    rw [← hentry (i / Y) hwx (i % Y) hwy, hidx]
  rw [hc1, hc2]
  refine ⟨hwx, hwy, ?_, ?_⟩
  · intro x hx y hy
    have hlt : x * Y + y < a.flatten.length := by
      rw [hflatlen]
      calc x * Y + y < x * Y + Y := Nat.add_lt_add_left hy _
        _ = (x + 1) * Y := by ring
        _ ≤ X * Y := Nat.mul_le_mul_right Y hx
    have := argminIdx_le a.flatten (x * Y + y) hlt
    rw [← hi, hflatw, hentry x hx y hy] at this
    exact this
  · intro x hx y hy heq
    by_contra hlt
    push_neg at hlt
    rw [hidx] at hlt
    have := argminIdx_first a.flatten (x * Y + y) (by rw [← hi]; exact hlt)
    rw [← hi, hflatw, hentry x hx y hy, heq] at this
    exact lt_irrefl _ this

/-- A comparison of flattened row-major indices with in-bounds column parts
is exactly the lexicographic comparison of the coordinates. -/
lemma flatIdx_le_lex {Y wx wy x y : ℕ} (hwy : wy < Y) (hy : y < Y)
    (h : wx * Y + wy ≤ x * Y + y) : wx < x ∨ (wx = x ∧ wy ≤ y) := by
  rcases Nat.lt_trichotomy wx x with hlt | heq | hgt
  · exact Or.inl hlt
  · subst heq
    exact Or.inr ⟨rfl, Nat.le_of_add_le_add_left h⟩
  · exfalso
    have hxx : x + 1 ≤ wx := hgt
    have : wx * Y + wy < wx * Y := by
      calc wx * Y + wy ≤ x * Y + y := h
        _ < x * Y + Y := Nat.add_lt_add_left hy _
        _ = (x + 1) * Y := by ring
        _ ≤ wx * Y := Nat.mul_le_mul_right Y hxx
    omega

end WinnerCorrect

/-- The Euclidean distance `np.linalg.norm(sample - p)` computed by `winner`
for one prototype, recovered from the executable squared distance. -/
noncomputable def euclidNorm (s p : List ℚ) : ℝ :=
  Real.sqrt ((sqDist s p : ℚ) : ℝ)

lemma sqDist_nonneg (s p : List ℚ) : 0 ≤ sqDist s p := by
  apply List.sum_nonneg
  intro z hz
  rcases List.mem_map.mp hz with ⟨q, _, rfl⟩
  exact sq_nonneg q

lemma euclidNorm_le_euclidNorm {s p q : List ℚ} (h : sqDist s p ≤ sqDist s q) :
    euclidNorm s p ≤ euclidNorm s q :=
  Real.sqrt_le_sqrt (by exact_mod_cast h)

lemma euclidNorm_inj {s p q : List ℚ} :
    euclidNorm s p = euclidNorm s q ↔ sqDist s p = sqDist s q := by
  unfold euclidNorm
  rw [Real.sqrt_inj (by exact_mod_cast sqDist_nonneg s p)
    (by exact_mod_cast sqDist_nonneg s q)]
  exact_mod_cast Iff.rfl

/-- C5: on a grid of shape `(X, Y, C)` with a sample of length `C`, `winner`
returns a coordinate whose prototype is at globally minimal Euclidean
distance from the sample, and on exact ties the returned coordinate is the
lexicographically smallest one (equivalently, the first hit of a row-major
scan of the flattened distance array).  Determinism of repeated calls is
immediate since the embedded `winner` is a pure function of its inputs. -/
theorem winner_min_euclid (sample : List ℚ) (w : Grid ℚ) (X Y C : ℕ)
    (hs : GridShape w X Y C) (hX : 1 ≤ X) (hY : 1 ≤ Y)
    (hlen : sample.length = C) :
    ∃ wx wy, winner sample w = some (wx, wy) ∧ wx < X ∧ wy < Y ∧
      (∀ x, x < X → ∀ y, y < Y →
        euclidNorm sample (protoAt w wx wy) ≤ euclidNorm sample (protoAt w x y)) ∧
      (∀ x, x < X → ∀ y, y < Y →
        euclidNorm sample (protoAt w x y) = euclidNorm sample (protoAt w wx wy) →
        wx < x ∨ (wx = x ∧ wy ≤ y)) := by
  obtain ⟨hwx, hwy, hmin, hfirst⟩ := winnerCoords_spec sample w hs hX hY
  refine ⟨(winnerCoords sample w).1, (winnerCoords sample w).2, ?_, hwx, hwy, ?_, ?_⟩
  · rw [winner, if_pos]
    left
    rw [numChans_eq hs hX hY]
    exact hlen
  · intro x hx y hy
    exact euclidNorm_le_euclidNorm (hmin x hx y hy)
  · intro x hx y hy heq
    have := hfirst x hx y hy (euclidNorm_inj.mp heq)
    exact flatIdx_le_lex hwy hy this

/-- Witness for C5 on the grid `[[[0], [0]]]` (shape `(1, 2, 1)`, an exact
tie between both prototypes) and sample `[0]`. -/
theorem winner_min_euclid_witness :
    GridShape ([[[0], [0]]] : Grid ℚ) 1 2 1 ∧
      (∃ wx wy, winner ([0] : List ℚ) [[[0], [0]]] = some (wx, wy) ∧
        wx < 1 ∧ wy < 2 ∧
        (∀ x, x < 1 → ∀ y, y < 2 →
          euclidNorm [0] (protoAt [[[0], [0]]] wx wy)
            ≤ euclidNorm [0] (protoAt [[[0], [0]]] x y)) ∧
        (∀ x, x < 1 → ∀ y, y < 2 →
          euclidNorm [0] (protoAt [[[0], [0]]] x y)
              = euclidNorm [0] (protoAt [[[0], [0]]] wx wy) →
          wx < x ∨ (wx = x ∧ wy ≤ y))) :=
  ⟨by decide,
    winner_min_euclid [0] [[[0], [0]]] 1 2 1 (by decide) (by decide) (by decide)
      (by decide)⟩

/-- C10: on a non-degenerate grid (`X ≥ 1`, `Y ≥ 1`) and a sample of
matching channel count, `winner` always returns an in-bounds coordinate
`(wx, wy)` with `wx < X` and `wy < Y`, so mesh lookups and labels built from
winning coordinates always refer to an existing neuron. -/
theorem winner_in_bounds (sample : List ℚ) (w : Grid ℚ) (X Y C : ℕ)
    (hs : GridShape w X Y C) (hX : 1 ≤ X) (hY : 1 ≤ Y)
    (hlen : sample.length = C) :
    ∃ wx wy, winner sample w = some (wx, wy) ∧ wx < X ∧ wy < Y := by
  obtain ⟨hwx, hwy, _, _⟩ := winnerCoords_spec sample w hs hX hY
  refine ⟨(winnerCoords sample w).1, (winnerCoords sample w).2, ?_, hwx, hwy⟩
  rw [winner, if_pos]
  left
  rw [numChans_eq hs hX hY]
  exact hlen

/-- Witness for C10 on the grid `[[[2, 3]]]` (shape `(1, 1, 2)`) and sample
`[0, 0]`. -/
theorem winner_in_bounds_witness :
    GridShape ([[[2, 3]]] : Grid ℚ) 1 1 2 ∧
      (∃ wx wy, winner ([0, 0] : List ℚ) [[[2, 3]]] = some (wx, wy) ∧
        wx < 1 ∧ wy < 1) :=
  ⟨by decide,
    winner_in_bounds [0, 0] [[[2, 3]]] 1 1 2 (by decide) (by decide) (by decide)
      (by decide)⟩


section ClusterAssigner

variable {α : Type} [LinearOrderedField α] {β : Type} [DecidableEq β]

/-- Position of the first occurrence of `x` in `l` (`l.length` if absent):
the integer `pandas.Series.replace` substitutes for a value, given the
unique list and `range(len(unique))`. -/
def posIn (x : β) : List β → ℕ
  | [] => 0
  | y :: ys => if x = y then 0 else posIn x ys + 1

@[simp] lemma posIn_cons_self (x : β) (l : List β) : posIn x (x :: l) = 0 := by
  rw [posIn, if_pos rfl]

lemma posIn_cons_ne {x y : β} (l : List β) (h : x ≠ y) :
    posIn x (y :: l) = posIn x l + 1 := by
  rw [posIn, if_neg h]

lemma posIn_lt_length {x : β} : ∀ {l : List β}, x ∈ l → posIn x l < l.length := by
  intro l
  induction l with
  | nil => intro h; simp at h
  | cons y ys ih =>
    intro h
    by_cases hxy : x = y
    · subst hxy
      simp
    · rw [posIn_cons_ne ys hxy]
      have : x ∈ ys := (List.mem_cons.mp h).resolve_left hxy
      exact Nat.succ_lt_succ (ih this)

lemma nthD_posIn {x : β} (d : β) : ∀ {l : List β}, x ∈ l →
    nthD l (posIn x l) d = x := by
  intro l
  induction l with
  | nil => intro h; simp at h
  | cons y ys ih =>
    intro h
    by_cases hxy : x = y
    · subst hxy; simp
    · rw [posIn_cons_ne ys hxy, nthD_cons_succ]
      exact ih ((List.mem_cons.mp h).resolve_left hxy)

lemma posIn_inj {x y : β} {l : List β} (hx : x ∈ l) (hy : y ∈ l)
    (h : posIn x l = posIn y l) : x = y := by
  have h1 := nthD_posIn (d := x) hx
  have h2 := nthD_posIn (d := x) hy
  rw [← h1, ← h2, h]

lemma posIn_nthD {l : List β} (hndp : l.Nodup) (d : β) :
    ∀ j, j < l.length → posIn (nthD l j d) l = j := by
  induction l with
  | nil => intro j hj; simp at hj
  | cons y ys ih =>
    intro j hj
    rcases List.nodup_cons.mp hndp with ⟨hyn, hys⟩
    match j with
    | 0 => simp
    | k + 1 =>
      have hk : k < ys.length := Nat.lt_of_succ_lt_succ hj
      have hmem : nthD ys k d ∈ ys := nthD_mem ys d k hk
      have hne : nthD ys k d ≠ y := fun h => hyn (h ▸ hmem)
      rw [nthD_cons_succ, posIn_cons_ne ys hne, ih hys k hk]

/-- First-occurrence deduplication with an accumulator of already-seen
values: the semantics of `pandas.Series.unique`, which returns the distinct
values in order of first appearance. -/
def firstOccAux (seen : List β) : List β → List β
  | [] => []
  | x :: xs =>
    if x ∈ seen then firstOccAux seen xs else x :: firstOccAux (x :: seen) xs

/-- Distinct values of a list in first-occurrence order. -/
def firstOcc (l : List β) : List β := firstOccAux [] l

/-- The per-row winning coordinates computed by `cluster_som`'s
`pixel_mat.apply(lambda row: winner(...), axis=1)`: one coordinate per row,
and any failing row (see `winner`) aborts the whole call. -/
def rowWinners (weights : Grid α) : List (List α) → Option (List (ℕ × ℕ))
  | [] => some []
  | r :: rs =>
    match winner r weights, rowWinners weights rs with
    | some c, some cs => some (c :: cs)
    | _, _ => none

/-- Embedding of `cluster_som(pixel_mat, weights)`: per-row `winner`, then
`pandas.unique` over the winning coordinates in first-occurrence order, then
`replace` of each coordinate by its position in the unique list.  The Python
code compares stringified coordinate tuples; `str` is injective on them, so
comparing the tuples directly is faithful. -/
def cluster_som (pixel_mat : List (List α)) (weights : Grid α) :
    Option (List ℕ) :=
  (rowWinners weights pixel_mat).map (fun coords =>
    let uniq := firstOcc coords
    coords.map (fun c => posIn c uniq))

lemma mem_firstOccAux (c : β) :
    ∀ (l seen : List β), c ∈ firstOccAux seen l ↔ (c ∈ l ∧ c ∉ seen) := by
  intro l
  induction l with
  | nil => intro seen; simp [firstOccAux]
  | cons x xs ih =>
    intro seen
    by_cases hx : x ∈ seen
    · rw [firstOccAux, if_pos hx]
      by_cases hcx : c = x
      · subst hcx
        simp [ih, hx]
      · simp [ih, hcx]
    · rw [firstOccAux, if_neg hx]
      by_cases hcx : c = x
      · subst hcx
        simp [hx]
      · simp [List.mem_cons, ih, hcx]

lemma nodup_firstOccAux : ∀ (l seen : List β), (firstOccAux seen l).Nodup := by
  intro l
  induction l with
  | nil => intro seen; simp [firstOccAux]
  | cons x xs ih =>
    intro seen
    by_cases hx : x ∈ seen
    · rw [firstOccAux, if_pos hx]; exact ih seen
    · rw [firstOccAux, if_neg hx]
      refine List.nodup_cons.mpr ⟨?_, ih (x :: seen)⟩
      intro hmem
      exact ((mem_firstOccAux x xs (x :: seen)).mp hmem).2 (List.mem_cons_self x seen)

lemma mem_firstOcc (c : β) (l : List β) : c ∈ firstOcc l ↔ c ∈ l := by
  rw [firstOcc, mem_firstOccAux]
  simp

lemma nodup_firstOcc (l : List β) : (firstOcc l).Nodup := nodup_firstOccAux l []

/-- Labels respect first-occurrence order: if `c1` first appears in `l`
strictly before `c2`, then `c1` comes strictly earlier in the unique list. -/
lemma firstOccAux_posIn_mono :
    ∀ (l seen : List β) (c1 c2 : β), c1 ∈ l → c1 ∉ seen → c2 ∉ seen →
      posIn c1 l < posIn c2 l →
      posIn c1 (firstOccAux seen l) < posIn c2 (firstOccAux seen l) := by
  intro l
  induction l with
  | nil => intro seen c1 c2 h1; simp at h1
  | cons x xs ih =>
    intro seen c1 c2 h1 hs1 hs2 hlt
    by_cases hx1 : c1 = x
    · subst hx1
      have hx2 : c2 ≠ c1 := by
        intro h
        subst h
        exact lt_irrefl _ hlt
      rw [firstOccAux, if_neg hs1, posIn_cons_self]
      rw [posIn_cons_ne _ hx2]
      exact Nat.succ_pos _
    · by_cases hx2 : c2 = x
      · exfalso
        subst hx2
        rw [posIn_cons_self] at hlt
        exact Nat.not_lt_zero _ hlt
      · have h1' : c1 ∈ xs := (List.mem_cons.mp h1).resolve_left hx1
        have hlt' : posIn c1 xs < posIn c2 xs := by
          rw [posIn_cons_ne _ hx1, posIn_cons_ne _ hx2] at hlt
          exact Nat.lt_of_succ_lt_succ hlt
        by_cases hx : x ∈ seen
        · rw [firstOccAux, if_pos hx]
          exact ih seen c1 c2 h1' hs1 hs2 hlt'
        · rw [firstOccAux, if_neg hx]
          have hm1 : c1 ∉ x :: seen := by
            intro h
            rcases List.mem_cons.mp h with h | h
            · exact hx1 h
            · exact hs1 h
          have hm2 : c2 ∉ x :: seen := by
            intro h
            rcases List.mem_cons.mp h with h | h
            · exact hx2 h
            · exact hs2 h
          rw [posIn_cons_ne _ hx1, posIn_cons_ne _ hx2]
          exact Nat.succ_lt_succ (ih (x :: seen) c1 c2 h1' hm1 hm2 hlt')

lemma firstOcc_posIn_mono {l : List β} {c1 c2 : β} (h1 : c1 ∈ l)
    (hlt : posIn c1 l < posIn c2 l) :
    posIn c1 (firstOcc l) < posIn c2 (firstOcc l) :=
  firstOccAux_posIn_mono l [] c1 c2 h1 (by simp) (by simp) hlt

lemma rowWinners_eq_some_map (weights : Grid α) :
    ∀ (l : List (List α)),
      (∀ r ∈ l, winner r weights = some (winnerCoords r weights)) →
      rowWinners weights l = some (l.map (fun r => winnerCoords r weights)) := by
  intro l
  induction l with
  | nil => intro _; rfl
  | cons x xs ih =>
    intro h
    have hx := h x (List.mem_cons_self x xs)
    have hxs := ih (fun r hr => h r (List.mem_cons_of_mem x hr))
    simp [rowWinners, hx, hxs]

lemma rowWinners_isSome_iff (weights : Grid α) :
    ∀ (l : List (List α)),
      (rowWinners weights l).isSome ↔ ∀ r ∈ l, (winner r weights).isSome := by
  intro l
  induction l with
  | nil => simp [rowWinners]
  | cons x xs ih =>
    rcases hfx : winner x weights with _ | v
    · have hnot : ¬ (∀ r ∈ x :: xs, (winner r weights).isSome) := by
        intro h
        have := h x (List.mem_cons_self x xs)
        rw [hfx] at this
        simp at this
      rcases hxs : rowWinners weights xs with _ | vs <;>
        simp [rowWinners, hfx, hxs, hnot]
    · rcases hxs : rowWinners weights xs with _ | vs
      · have htail : ¬ ∀ r ∈ xs, (winner r weights).isSome := by
          intro h
          have := ih.mpr h
          rw [hxs] at this
          simp at this
        have heq : rowWinners weights (x :: xs) = none := by
          simp [rowWinners, hfx, hxs]
        rw [heq]
        constructor
        · intro h; simp at h
        · intro h
          exact absurd (fun r hr => h r (List.mem_cons_of_mem x hr)) htail
      · have htail : ∀ r ∈ xs, (winner r weights).isSome :=
          ih.mp (by rw [hxs]; rfl)
        have hall : ∀ r ∈ x :: xs, (winner r weights).isSome := by
          intro r hr
          rcases List.mem_cons.mp hr with h' | h'
          · subst h'; rw [hfx]; rfl
          · exact htail r h'
        have heq : rowWinners weights (x :: xs) = some (v :: vs) := by
          simp [rowWinners, hfx, hxs]
        rw [heq]
        exact ⟨fun _ => hall, fun _ => rfl⟩

lemma nthD_of_mem {γ : Type} {x : γ} {l : List γ} (d : γ) (h : x ∈ l) :
    ∃ i, i < l.length ∧ nthD l i d = x := by
  induction l with
  | nil => simp at h
  | cons y ys ih =>
    rcases List.mem_cons.mp h with h' | h'
    · exact ⟨0, Nat.succ_pos _, h'.symm⟩
    · rcases ih h' with ⟨i, hi, hv⟩
      exact ⟨i + 1, Nat.succ_lt_succ hi, hv⟩

end ClusterAssigner

/-- C3: for a trained grid and a non-empty sample matrix with matching
channel count, `cluster_som` returns exactly one label per row; the unique
winning-coordinate list has no duplicates and contains exactly the observed
coordinates (so its length `K` is the number of distinct winning
coordinates); every label is `< K` and every value in `{0, …, K-1}` is
attained; two rows get equal labels iff their winning coordinates are
identical; the first row's label is `0`; and labels increase in
first-occurrence order of the coordinates. -/
theorem cluster_som_label_density (pixel_mat : List (List ℚ)) (w : Grid ℚ)
    (X Y C : ℕ) (hs : GridShape w X Y C) (hX : 1 ≤ X) (hY : 1 ≤ Y)
    (hne : pixel_mat ≠ []) (hrows : ∀ r ∈ pixel_mat, r.length = C) :
    ∃ labels : List ℕ,
      cluster_som pixel_mat w = some labels ∧
      labels.length = pixel_mat.length ∧
      (firstOcc (pixel_mat.map (fun r => winnerCoords r w))).Nodup ∧
      (∀ c, c ∈ firstOcc (pixel_mat.map (fun r => winnerCoords r w)) ↔
        c ∈ pixel_mat.map (fun r => winnerCoords r w)) ∧
      (∀ i, i < labels.length →
        nthD labels i 0
          < (firstOcc (pixel_mat.map (fun r => winnerCoords r w))).length) ∧
      (∀ j, j < (firstOcc (pixel_mat.map (fun r => winnerCoords r w))).length →
        ∃ i, i < labels.length ∧ nthD labels i 0 = j) ∧
      (∀ i j, i < labels.length → j < labels.length →
        (nthD labels i 0 = nthD labels j 0 ↔
          winnerCoords (nthD pixel_mat i []) w
            = winnerCoords (nthD pixel_mat j []) w)) ∧
      nthD labels 0 0 = 0 ∧
      (∀ i j, i < labels.length → j < labels.length →
        posIn (winnerCoords (nthD pixel_mat i []) w)
            (pixel_mat.map (fun r => winnerCoords r w))
          < posIn (winnerCoords (nthD pixel_mat j []) w)
            (pixel_mat.map (fun r => winnerCoords r w)) →
        nthD labels i 0 < nthD labels j 0) := by
  set coords := pixel_mat.map (fun r => winnerCoords r w) with hcoords
  set uniq := firstOcc coords with huniq
  set labels := coords.map (fun c => posIn c uniq) with hlabels
  have hclen : coords.length = pixel_mat.length := by rw [hcoords]; simp
  have hllen : labels.length = pixel_mat.length := by rw [hlabels]; simp [hclen]
  have hwin : ∀ r ∈ pixel_mat, winner r w = some (winnerCoords r w) := by
    intro r hr
    rw [winner, if_pos]
    left
    rw [numChans_eq hs hX hY]
    exact hrows r hr
  have hsome : cluster_som pixel_mat w = some labels := by
    rw [cluster_som, rowWinners_eq_some_map w pixel_mat hwin]
    rfl
  have hlab : ∀ i, i < pixel_mat.length →
      nthD labels i 0 = posIn (nthD coords i (0, 0)) uniq := by
    intro i hi
    rw [hlabels]
    exact nthD_map (fun c => posIn c uniq) coords 0 (0, 0) i
      (by rw [hclen]; exact hi)
  have hcrd : ∀ i, i < pixel_mat.length →
      nthD coords i (0, 0) = winnerCoords (nthD pixel_mat i []) w := by
    intro i hi
    rw [hcoords]
    exact nthD_map (fun r => winnerCoords r w) pixel_mat (0, 0) [] i hi
  have hmemc : ∀ i, i < pixel_mat.length → nthD coords i (0, 0) ∈ coords := by
    intro i hi
    exact nthD_mem coords (0, 0) i (by rw [hclen]; exact hi)
  have hmemu : ∀ c, c ∈ coords → c ∈ uniq := by
    intro c hc
    rw [huniq, mem_firstOcc]
    exact hc
  refine ⟨labels, hsome, hllen, nodup_firstOcc coords,
    fun c => mem_firstOcc c coords, ?_, ?_, ?_, ?_, ?_⟩
  · intro i hi
    rw [hllen] at hi
    rw [hlab i hi]
    exact posIn_lt_length (hmemu _ (hmemc i hi))
  · intro j hj
    have hu : nthD uniq j (0, 0) ∈ uniq := nthD_mem uniq (0, 0) j hj
    have hucoords : nthD uniq j (0, 0) ∈ coords := by
      rw [huniq] at hu
      exact (mem_firstOcc _ coords).mp hu
    obtain ⟨i, hi, hv⟩ := nthD_of_mem (0, 0) hucoords
    rw [hclen] at hi
    refine ⟨i, by rw [hllen]; exact hi, ?_⟩
    rw [hlab i hi, hv]
    exact posIn_nthD (nodup_firstOcc coords) (0, 0) j hj
  · intro i j hi hj
    rw [hllen] at hi hj
    rw [hlab i hi, hlab j hj, ← hcrd i hi, ← hcrd j hj]
    constructor
    · intro h
      exact posIn_inj (hmemu _ (hmemc i hi)) (hmemu _ (hmemc j hj)) h
    · intro h
      rw [h]
  · obtain ⟨r0, rest, hpm⟩ := List.exists_cons_of_ne_nil hne
    have h0 : (0 : ℕ) < pixel_mat.length := by rw [hpm]; exact Nat.succ_pos _
    rw [hlab 0 h0]
    have hcoords0 : coords = winnerCoords r0 w :: rest.map (fun r => winnerCoords r w) := by
      rw [hcoords, hpm]
      rfl
    have hc0 : nthD coords 0 (0, 0) = winnerCoords r0 w := by rw [hcoords0]; rfl
    have huniq0 : uniq = winnerCoords r0 w
        :: firstOccAux [winnerCoords r0 w] (rest.map (fun r => winnerCoords r w)) := by
      rw [huniq, hcoords0, firstOcc, firstOccAux, if_neg (List.not_mem_nil _)]
    rw [hc0, huniq0]
    exact posIn_cons_self _ _
  · intro i j hi hj hlt
    rw [hllen] at hi hj
    rw [hlab i hi, hlab j hj, hcrd i hi, hcrd j hj, huniq]
    refine firstOcc_posIn_mono ?_ hlt
    rw [← hcrd i hi]
    exact hmemc i hi

/-- Concrete sample matrix for the C3 witness. -/
def pmEx : List (List ℚ) := [[1, 0], [0, 1], [1, 0]]

/-- Concrete trained grid (shape `(2, 1, 2)`) for the C3 witness. -/
def wEx : Grid ℚ := [[[1, 0]], [[0, 1]]]

/-- Witness for C3 on a 3-row, 2-channel matrix and a `(2, 1, 2)` grid. -/
theorem cluster_som_label_density_witness :
    GridShape wEx 2 1 2 ∧ pmEx ≠ [] ∧
      (∃ labels : List ℕ,
        cluster_som pmEx wEx = some labels ∧
        labels.length = pmEx.length ∧
        (firstOcc (pmEx.map (fun r => winnerCoords r wEx))).Nodup ∧
        (∀ c, c ∈ firstOcc (pmEx.map (fun r => winnerCoords r wEx)) ↔
          c ∈ pmEx.map (fun r => winnerCoords r wEx)) ∧
        (∀ i, i < labels.length →
          nthD labels i 0
            < (firstOcc (pmEx.map (fun r => winnerCoords r wEx))).length) ∧
        (∀ j, j < (firstOcc (pmEx.map (fun r => winnerCoords r wEx))).length →
          ∃ i, i < labels.length ∧ nthD labels i 0 = j) ∧
        (∀ i j, i < labels.length → j < labels.length →
          (nthD labels i 0 = nthD labels j 0 ↔
            winnerCoords (nthD pmEx i []) wEx
              = winnerCoords (nthD pmEx j []) wEx)) ∧
        nthD labels 0 0 = 0 ∧
        (∀ i j, i < labels.length → j < labels.length →
          posIn (winnerCoords (nthD pmEx i []) wEx)
              (pmEx.map (fun r => winnerCoords r wEx))
            < posIn (winnerCoords (nthD pmEx j []) wEx)
              (pmEx.map (fun r => winnerCoords r wEx)) →
          nthD labels i 0 < nthD labels j 0)) :=
  ⟨by decide, by decide,
    cluster_som_label_density pmEx wEx 2 1 2 (by decide) (by decide) (by decide)
      (by decide) (by decide)⟩

/-- C8 (amended): `winner` — and with it `cluster_som` — fails exactly when
the sample length is incompatible with the grid's channel count under numpy
broadcasting: it succeeds iff the sample length equals `C`, OR the sample
has length 1, OR `C = 1` (either side broadcasts).  A bare channel-count
mismatch is therefore NOT always an error. -/
theorem winner_fail_iff_broadcast (sample : List ℚ) (w : Grid ℚ) (X Y C : ℕ)
    (hs : GridShape w X Y C) (hX : 1 ≤ X) (hY : 1 ≤ Y) :
    ((winner sample w).isSome ↔
      (sample.length = C ∨ sample.length = 1 ∨ C = 1)) ∧
    ∀ pm : List (List ℚ),
      ((cluster_som pm w).isSome ↔
        ∀ r ∈ pm, (r.length = C ∨ r.length = 1 ∨ C = 1)) := by
  have hnc := numChans_eq hs hX hY
  have hw : ∀ s : List ℚ,
      (winner s w).isSome ↔ (s.length = C ∨ s.length = 1 ∨ C = 1) := by
    intro s
    rw [winner, hnc]
    by_cases hc : s.length = C ∨ s.length = 1 ∨ C = 1
    · rw [if_pos hc]
      simp [hc]
    · rw [if_neg hc]
      simp [hc]
  refine ⟨hw sample, ?_⟩
  intro pm
  have hmapsome : ∀ (o : Option (List (ℕ × ℕ))) (f : List (ℕ × ℕ) → List ℕ),
      (o.map f).isSome = o.isSome := by
    intro o f
    cases o <;> rfl
  rw [cluster_som, hmapsome, rowWinners_isSome_iff]
  constructor
  · intro h r hr
    exact (hw r).mp (h r hr)
  · intro h r hr
    exact (hw r).mpr (h r hr)

/-- Witness for the amended C8: on a `(1, 1, 2)` grid, a 2-channel sample
succeeds and a 3-channel sample fails. -/
theorem winner_fail_iff_broadcast_witness :
    GridShape ([[[0, 1]]] : Grid ℚ) 1 1 2 ∧
      (((winner ([7, 8] : List ℚ) [[[0, 1]]]).isSome ↔
        (([7, 8] : List ℚ).length = 2 ∨ ([7, 8] : List ℚ).length = 1 ∨ 2 = 1)) ∧
      ∀ pm : List (List ℚ),
        ((cluster_som pm [[[0, 1]]]).isSome ↔
          ∀ r ∈ pm, (r.length = 2 ∨ r.length = 1 ∨ 2 = 1))) :=
  ⟨by decide,
    winner_fail_iff_broadcast [7, 8] [[[0, 1]]] 1 1 2 (by decide) (by decide)
      (by decide)⟩

/-- Counterexample to C8 as stated: the length-1 sample `[5]` differs from
the grid's channel count `C = 2`, yet `winner` does not raise — numpy
broadcasts the sample and a coordinate is returned. -/
theorem winner_channel_mismatch_no_error :
    GridShape ([[[0, 0], [1, 1]]] : Grid ℚ) 1 2 2 ∧
    ([(5 : ℚ)] : List ℚ).length ≠ 2 ∧
    winner ([5] : List ℚ) [[[0, 0], [1, 1]]] = some (0, 1) := by
  refine ⟨by decide, by decide, ?_⟩
  norm_num [winner, winnerCoords, activationMap, sqDist, bsub, numChans, argminIdx]

section IndexedMap

variable {γ δ : Type}

/-- Map with the element index threaded through, starting at `i`: the
shape-preserving elementwise traversal used to embed numpy's broadcasted
arithmetic over the `(X, Y, C)` grid. -/
def mapIdxFrom (f : ℕ → γ → δ) : ℕ → List γ → List δ
  | _, [] => []
  | i, x :: xs => f i x :: mapIdxFrom f (i + 1) xs

@[simp] lemma length_mapIdxFrom (f : ℕ → γ → δ) :
    ∀ (i : ℕ) (l : List γ), (mapIdxFrom f i l).length = l.length := by
  intro i l
  induction l generalizing i with
  | nil => rfl
  | cons x xs ih => simp [mapIdxFrom, ih]

lemma nthD_mapIdxFrom (f : ℕ → γ → δ) (d : δ) (d' : γ) :
    ∀ (l : List γ) (i j : ℕ), j < l.length →
      nthD (mapIdxFrom f i l) j d = f (i + j) (nthD l j d') := by
  intro l
  induction l with
  | nil => intro i j hj; simp at hj
  | cons x xs ih =>
    intro i j hj
    match j with
    | 0 => simp [mapIdxFrom]
    | k + 1 =>
      rw [mapIdxFrom, nthD_cons_succ, nthD_cons_succ,
        ih (i + 1) k (Nat.lt_of_succ_lt_succ hj)]
      congr 1
      omega

lemma mem_mapIdxFrom (f : ℕ → γ → δ) :
    ∀ (i : ℕ) (l : List γ) (b : δ), b ∈ mapIdxFrom f i l →
      ∃ n x, x ∈ l ∧ b = f n x := by
  intro i l
  induction l generalizing i with
  | nil => intro b hb; simp [mapIdxFrom] at hb
  | cons x xs ih =>
    intro b hb
    rcases List.mem_cons.mp hb with h | h
    · exact ⟨i, x, List.mem_cons_self x xs, h⟩
    · rcases ih (i + 1) b h with ⟨n, z, hz, hb'⟩
      exact ⟨n, z, List.mem_cons_of_mem x hz, hb'⟩

end IndexedMap

section NeighborhoodUpdate

/-- Transpose of a 2-D array represented as an index function:
`m.T[a][b] = m[b][a]`. -/
def mT (m : ℕ → ℕ → ℝ) : ℕ → ℕ → ℝ := fun a b => m b a

/-- The x-coordinate mesh built in `train_som` by
`np.meshgrid(np.arange(x_neurons), np.arange(y_neurons))` and cast to float:
a `(y_neurons, x_neurons)`-shaped array whose entry `[i][j]` is `j`.  It is
modelled as its index function; only entries with `i < y_neurons` and
`j < x_neurons` are ever read. -/
def xMeshStd : ℕ → ℕ → ℝ := fun _ j => (j : ℝ)

/-- The matching y-coordinate mesh: entry `[i][j]` is `i`. -/
def yMeshStd : ℕ → ℕ → ℝ := fun i _ => (i : ℝ)

/-- Embedding of `update(sample, weights, winning_coords, sigma,
learning_rate, x_mesh, y_mesh)`: the separable Gaussian neighborhood
`g = (ax * ay).T * learning_rate` around the winning coordinate with
denominator `d = 2 * pi * sigma * sigma`, applied as
`weights + einsum('ij,ijk->ijk', g, sample - weights)`.  The sample is
assumed channel-compatible with the grid, as in every call site
(`train_som` builds `weights` with the sample matrix's channel count). -/
noncomputable def update (sample : List ℝ) (weights : Grid ℝ) (wc : ℕ × ℕ)
    (sigma learning_rate : ℝ) (x_mesh y_mesh : ℕ → ℕ → ℝ) : Grid ℝ :=
  let d := 2 * Real.pi * sigma * sigma
  let ax : ℕ → ℕ → ℝ := fun i j =>
    Real.exp (-(x_mesh i j - mT x_mesh wc.1 wc.2) ^ 2 / d)
  let ay : ℕ → ℕ → ℝ := fun i j =>
    Real.exp (-(y_mesh i j - mT y_mesh wc.1 wc.2) ^ 2 / d)
  let g : ℕ → ℕ → ℝ := fun x y =>
    mT (fun i j => ax i j * ay i j) x y * learning_rate
  mapIdxFrom (fun x row =>
    mapIdxFrom (fun y p =>
      mapIdxFrom (fun c v => v + g x y * (nthD sample c 0 - v)) 0 p) 0 row)
    0 weights

end NeighborhoodUpdate

/-- C2: one call to `update` on a grid of shape `(X, Y, C)` with the
standard meshes returns, at every neuron `(x, y)` and channel `c`, exactly
`old + weight(x, y) * (sample_c - old)` where
`weight(x, y) = exp(-(x - wx)² / d) * exp(-(y - wy)² / d) * learning_rate`
and `d = 2π sigma²`, the topological distances being grid-index
differences. -/
theorem update_formula (sample : List ℝ) (weights : Grid ℝ) (X Y C : ℕ)
    (hs : GridShape weights X Y C) (hlen : sample.length = C)
    (wx wy : ℕ) (hwx : wx < X) (hwy : wy < Y) (sigma lr : ℝ)
    (x y c : ℕ) (hx : x < X) (hy : y < Y) (hc : c < C) :
    nthD (nthD (nthD
        (update sample weights (wx, wy) sigma lr xMeshStd yMeshStd) x []) y []) c 0
      = nthD (protoAt weights x y) c 0
        + (Real.exp (-((x : ℝ) - (wx : ℝ)) ^ 2 / (2 * Real.pi * sigma ^ 2))
            * Real.exp (-((y : ℝ) - (wy : ℝ)) ^ 2 / (2 * Real.pi * sigma ^ 2)) * lr)
          * (nthD sample c 0 - nthD (protoAt weights x y) c 0) := by
  have hxw : x < weights.length := by rw [hs.1]; exact hx
  have hrow := nthD_mem weights [] x hxw
  have hylen : y < (nthD weights x []).length := by
    rw [(hs.2 _ hrow).1]; exact hy
  have hpm := nthD_mem (nthD weights x []) [] y hylen
  have hclen : c < (nthD (nthD weights x []) y []).length := by
    rw [(hs.2 _ hrow).2 _ hpm]; exact hc
  rw [update]
  rw [nthD_mapIdxFrom _ [] [] weights 0 x hxw]
  rw [nthD_mapIdxFrom _ [] [] (nthD weights x []) 0 y hylen]
  rw [nthD_mapIdxFrom _ 0 0 (nthD (nthD weights x []) y []) 0 c hclen]
  simp only [Nat.zero_add, mT, xMeshStd, yMeshStd, protoAt]
  ring_nf

/-- Witness for C2 on the `(1, 1, 1)` grid `[[[1]]]`, sample `[2]`,
`sigma = 1`, `learning_rate = 1`, at neuron `(0, 0)` and channel `0`. -/
theorem update_formula_witness :
    GridShape ([[[1]]] : Grid ℝ) 1 1 1 ∧
      nthD (nthD (nthD
          (update [2] [[[1]]] (0, 0) 1 1 xMeshStd yMeshStd) 0 []) 0 []) 0 0
        = nthD (protoAt [[[1]]] 0 0) 0 0
          + (Real.exp (-(((0 : ℕ) : ℝ) - ((0 : ℕ) : ℝ)) ^ 2 / (2 * Real.pi * (1 : ℝ) ^ 2))
              * Real.exp (-(((0 : ℕ) : ℝ) - ((0 : ℕ) : ℝ)) ^ 2 / (2 * Real.pi * (1 : ℝ) ^ 2)) * 1)
            * (nthD ([2] : List ℝ) 0 0 - nthD (protoAt [[[1]]] 0 0) 0 0) :=
  ⟨by decide,
    update_formula [2] [[[1]]] 1 1 1 (by decide) rfl 0 0 (by decide) (by decide)
      1 1 0 0 0 (by decide) (by decide) (by decide)⟩

section Trainer

/-- The random initialization of `train_som`:
`rand_gen.rand(x_neurons, y_neurons, C) * 2 - 1`.  The uniform samples drawn
from `np.random.RandomState(random_seed)` are abstracted as the function
`rand` — the spec prescribes no random-number algorithm, and nothing below
depends on the drawn values. -/
def initGrid (x_neurons y_neurons C : ℕ) (rand : ℕ → ℕ → ℕ → ℝ) : Grid ℝ :=
  (List.range x_neurons).map fun x => (List.range y_neurons).map fun y =>
    (List.range C).map fun c => rand x y c * 2 - 1

/-- The normalization `weights /= np.linalg.norm(weights, axis=-1,
keepdims=True)`: every prototype vector is divided componentwise by its own
Euclidean norm. -/
noncomputable def normalizeGrid (w : Grid ℝ) : Grid ℝ :=
  w.map fun row => row.map fun p =>
    p.map fun v => v / Real.sqrt ((p.map (fun z => z ^ 2)).sum)

/-- One iteration of the training loop of `train_som` at global step `t`:
select row `t % N`, find its winning neuron on the current grid, decay both
parameters with `decay_function(_, t, num_iters)`, and apply `update`.
A failing `winner` (impossible for a rectangular sample matrix, see
`trainLoop_pureLoop`) aborts the run, as the Python exception would. -/
noncomputable def trainStep (pixel_mat : List (List ℝ)) (num_iters : ℕ)
    (sigma learning_rate : ℝ) (t : ℕ) (w : Grid ℝ) : Option (Grid ℝ) :=
  let sample := nthD pixel_mat (t % pixel_mat.length) []
  match winner sample w with
  | none => none
  | some wc =>
    some (update sample w wc (decay_function sigma t num_iters)
      (decay_function learning_rate t num_iters) xMeshStd yMeshStd)

/-- Grid state after the first `k` steps of the training loop. -/
noncomputable def trainLoop (pixel_mat : List (List ℝ)) (num_iters : ℕ)
    (sigma learning_rate : ℝ) (w0 : Grid ℝ) : ℕ → Option (Grid ℝ)
  | 0 => some w0
  | k + 1 => (trainLoop pixel_mat num_iters sigma learning_rate w0 k).bind
      (trainStep pixel_mat num_iters sigma learning_rate k)

/-- Embedding of `train_som(pixel_mat, x_neurons, y_neurons, num_passes,
sigma, learning_rate, random_seed)`: initialize and normalize the weights,
set `num_iters = num_passes * N`, and run the loop for exactly `num_iters`
steps.  `num_passes` is a natural number: a negative Python value makes
`np.arange(num_iters)` empty, i.e. behaves exactly like `0`.  For an empty
`pixel_mat` the embedded channel count `(headD []).length` is `0`. -/
noncomputable def train_som (pixel_mat : List (List ℝ))
    (x_neurons y_neurons num_passes : ℕ) (sigma learning_rate : ℝ)
    (rand : ℕ → ℕ → ℕ → ℝ) : Option (Grid ℝ) :=
  let weights := normalizeGrid
    (initGrid x_neurons y_neurons ((pixel_mat.headD []).length) rand)
  let num_iters := num_passes * pixel_mat.length
  trainLoop pixel_mat num_iters sigma learning_rate weights num_iters

/-- The same loop with the per-step success made explicit: the grid after
`k` successful steps. -/
noncomputable def pureLoop (pixel_mat : List (List ℝ)) (num_iters : ℕ)
    (sigma learning_rate : ℝ) (w0 : Grid ℝ) : ℕ → Grid ℝ
  | 0 => w0
  | k + 1 =>
    let w := pureLoop pixel_mat num_iters sigma learning_rate w0 k
    let sample := nthD pixel_mat (k % pixel_mat.length) []
    update sample w (winnerCoords sample w)
      (decay_function sigma k num_iters)
      (decay_function learning_rate k num_iters) xMeshStd yMeshStd

lemma update_shape {s : List ℝ} {w : Grid ℝ} {wc : ℕ × ℕ} {σ lr : ℝ}
    {xm ym : ℕ → ℕ → ℝ} {X Y C : ℕ} (hs : GridShape w X Y C) :
    GridShape (update s w wc σ lr xm ym) X Y C := by
  obtain ⟨h1, h2⟩ := hs
  constructor
  · rw [update]
    simp [h1]
  · intro r hr
    rw [update] at hr
    rcases mem_mapIdxFrom _ _ _ _ hr with ⟨x, row, hrow, rfl⟩
    constructor
    · simp [(h2 row hrow).1]
    · intro p hp
      rcases mem_mapIdxFrom _ _ _ _ hp with ⟨y, q, hq, rfl⟩
      simp [(h2 row hrow).2 q hq]

lemma initGrid_shape (X Y C : ℕ) (rand : ℕ → ℕ → ℕ → ℝ) :
    GridShape (initGrid X Y C rand) X Y C := by
  constructor
  · simp [initGrid]
  · intro r hr
    rw [initGrid] at hr
    rcases List.mem_map.mp hr with ⟨x, _, rfl⟩
    constructor
    · simp
    · intro p hp
      rcases List.mem_map.mp hp with ⟨y, _, rfl⟩
      simp

lemma normalizeGrid_shape {w : Grid ℝ} {X Y C : ℕ} (hs : GridShape w X Y C) :
    GridShape (normalizeGrid w) X Y C := by
  obtain ⟨h1, h2⟩ := hs
  constructor
  · simp [normalizeGrid, h1]
  · intro r hr
    rw [normalizeGrid] at hr
    rcases List.mem_map.mp hr with ⟨row, hrow, rfl⟩
    constructor
    · simp [(h2 row hrow).1]
    · intro p hp
      rcases List.mem_map.mp hp with ⟨q, hq, rfl⟩
      simp [(h2 row hrow).2 q hq]

/-- On a non-empty rectangular sample matrix every step of the loop
succeeds, and the option-valued loop computes exactly `pureLoop`, preserving
the grid's shape. -/
lemma trainLoop_pureLoop (pixel_mat : List (List ℝ)) (T : ℕ) (σ lr : ℝ)
    (w0 : Grid ℝ) {X Y C : ℕ} (hw0 : GridShape w0 X Y C) (hX : 1 ≤ X)
    (hY : 1 ≤ Y) (hne : pixel_mat ≠ [])
    (hrows : ∀ r ∈ pixel_mat, r.length = C) :
    ∀ k, trainLoop pixel_mat T σ lr w0 k = some (pureLoop pixel_mat T σ lr w0 k)
      ∧ GridShape (pureLoop pixel_mat T σ lr w0 k) X Y C := by
  intro k
  induction k with
  | zero => exact ⟨rfl, hw0⟩
  | succ k ih =>
    obtain ⟨hsome, hshape⟩ := ih
    have hN : 0 < pixel_mat.length := List.length_pos.mpr hne
    have hsmem : nthD pixel_mat (k % pixel_mat.length) [] ∈ pixel_mat :=
      nthD_mem pixel_mat [] _ (Nat.mod_lt k hN)
    have hslen : (nthD pixel_mat (k % pixel_mat.length) []).length = C :=
      hrows _ hsmem
    have hwin : winner (nthD pixel_mat (k % pixel_mat.length) [])
        (pureLoop pixel_mat T σ lr w0 k) =
        some (winnerCoords (nthD pixel_mat (k % pixel_mat.length) [])
          (pureLoop pixel_mat T σ lr w0 k)) := by
      rw [winner, if_pos]
      left
      rw [numChans_eq hshape hX hY]
      exact hslen
    constructor
    · rw [trainLoop, hsome, Option.some_bind, trainStep, hwin]
      rfl
    · exact update_shape hshape

end Trainer

/-- C1: on a non-empty rectangular sample matrix with `num_passes ≥ 1`,
`train_som` is exactly the `T = num_passes * N`-step loop started from the
normalized random grid, with no early stopping: every step up to `T`
succeeds; at global step `t` the loop selects row `t % N`, finds that row's
winner on the current grid, decays sigma and the learning rate with
`decay_function(_, t, T)` and applies `update`; and step `t + 1` is computed
from exactly the grid produced by step `t`. -/
theorem train_runs_T_steps (pixel_mat : List (List ℝ))
    (x_neurons y_neurons num_passes C : ℕ) (sigma learning_rate : ℝ)
    (rand : ℕ → ℕ → ℕ → ℝ)
    (hX : 1 ≤ x_neurons) (hY : 1 ≤ y_neurons) (hp : 1 ≤ num_passes)
    (hne : pixel_mat ≠ []) (hrows : ∀ r ∈ pixel_mat, r.length = C) :
    train_som pixel_mat x_neurons y_neurons num_passes sigma learning_rate rand
        = trainLoop pixel_mat (num_passes * pixel_mat.length) sigma
            learning_rate (normalizeGrid (initGrid x_neurons y_neurons C rand))
            (num_passes * pixel_mat.length)
    ∧ (∀ k, k ≤ num_passes * pixel_mat.length →
        trainLoop pixel_mat (num_passes * pixel_mat.length) sigma learning_rate
            (normalizeGrid (initGrid x_neurons y_neurons C rand)) k
          = some (pureLoop pixel_mat (num_passes * pixel_mat.length) sigma
              learning_rate
              (normalizeGrid (initGrid x_neurons y_neurons C rand)) k))
    ∧ (∀ t, t < num_passes * pixel_mat.length →
        pureLoop pixel_mat (num_passes * pixel_mat.length) sigma learning_rate
            (normalizeGrid (initGrid x_neurons y_neurons C rand)) (t + 1)
          = update (nthD pixel_mat (t % pixel_mat.length) [])
              (pureLoop pixel_mat (num_passes * pixel_mat.length) sigma
                learning_rate
                (normalizeGrid (initGrid x_neurons y_neurons C rand)) t)
              (winnerCoords (nthD pixel_mat (t % pixel_mat.length) [])
                (pureLoop pixel_mat (num_passes * pixel_mat.length) sigma
                  learning_rate
                  (normalizeGrid (initGrid x_neurons y_neurons C rand)) t))
              (decay_function sigma t (num_passes * pixel_mat.length))
              (decay_function learning_rate t (num_passes * pixel_mat.length))
              xMeshStd yMeshStd)
    ∧ train_som pixel_mat x_neurons y_neurons num_passes sigma learning_rate rand
        = some (pureLoop pixel_mat (num_passes * pixel_mat.length) sigma
            learning_rate (normalizeGrid (initGrid x_neurons y_neurons C rand))
            (num_passes * pixel_mat.length)) := by
  have hC : (pixel_mat.headD []).length = C := by
    obtain ⟨r0, rest, rfl⟩ := List.exists_cons_of_ne_nil hne
    exact hrows r0 (List.mem_cons_self _ _)
  have hshape : GridShape (normalizeGrid (initGrid x_neurons y_neurons C rand))
      x_neurons y_neurons C :=
    normalizeGrid_shape (initGrid_shape _ _ _ _)
  have hloop := trainLoop_pureLoop pixel_mat (num_passes * pixel_mat.length)
    sigma learning_rate (normalizeGrid (initGrid x_neurons y_neurons C rand))
    hshape hX hY hne hrows
  have ha : train_som pixel_mat x_neurons y_neurons num_passes sigma
      learning_rate rand
      = trainLoop pixel_mat (num_passes * pixel_mat.length) sigma learning_rate
          (normalizeGrid (initGrid x_neurons y_neurons C rand))
          (num_passes * pixel_mat.length) := by
    have hdef : train_som pixel_mat x_neurons y_neurons num_passes sigma
        learning_rate rand
        = trainLoop pixel_mat (num_passes * pixel_mat.length) sigma
            learning_rate
            (normalizeGrid (initGrid x_neurons y_neurons
              ((pixel_mat.headD []).length) rand))
            (num_passes * pixel_mat.length) := rfl
    rw [hdef, hC]
  refine ⟨ha, fun k _ => (hloop k).1, fun t _ => rfl, ?_⟩
  rw [ha]
  exact (hloop _).1

/-- Witness for C1 on a one-row matrix, a `1 × 1` grid and one pass. -/
theorem train_runs_T_steps_witness :
    (1 : ℕ) ≤ 1 ∧ ([[1]] : List (List ℝ)) ≠ [] ∧
      (train_som [[1]] 1 1 1 1 (1 / 2) (fun _ _ _ => 1)
          = trainLoop [[1]] (1 * ([[1]] : List (List ℝ)).length) 1 (1 / 2)
              (normalizeGrid (initGrid 1 1 1 (fun _ _ _ => 1)))
              (1 * ([[1]] : List (List ℝ)).length)
      ∧ (∀ k, k ≤ 1 * ([[1]] : List (List ℝ)).length →
          trainLoop [[1]] (1 * ([[1]] : List (List ℝ)).length) 1 (1 / 2)
              (normalizeGrid (initGrid 1 1 1 (fun _ _ _ => 1))) k
            = some (pureLoop [[1]] (1 * ([[1]] : List (List ℝ)).length) 1
                (1 / 2) (normalizeGrid (initGrid 1 1 1 (fun _ _ _ => 1))) k))
      ∧ (∀ t, t < 1 * ([[1]] : List (List ℝ)).length →
          pureLoop [[1]] (1 * ([[1]] : List (List ℝ)).length) 1 (1 / 2)
              (normalizeGrid (initGrid 1 1 1 (fun _ _ _ => 1))) (t + 1)
            = update (nthD [[1]] (t % ([[1]] : List (List ℝ)).length) [])
                (pureLoop [[1]] (1 * ([[1]] : List (List ℝ)).length) 1 (1 / 2)
                  (normalizeGrid (initGrid 1 1 1 (fun _ _ _ => 1))) t)
                (winnerCoords (nthD [[1]] (t % ([[1]] : List (List ℝ)).length) [])
                  (pureLoop [[1]] (1 * ([[1]] : List (List ℝ)).length) 1 (1 / 2)
                    (normalizeGrid (initGrid 1 1 1 (fun _ _ _ => 1))) t))
                (decay_function 1 t (1 * ([[1]] : List (List ℝ)).length))
                (decay_function (1 / 2) t (1 * ([[1]] : List (List ℝ)).length))
                xMeshStd yMeshStd)
      ∧ train_som [[1]] 1 1 1 1 (1 / 2) (fun _ _ _ => 1)
          = some (pureLoop [[1]] (1 * ([[1]] : List (List ℝ)).length) 1 (1 / 2)
              (normalizeGrid (initGrid 1 1 1 (fun _ _ _ => 1)))
              (1 * ([[1]] : List (List ℝ)).length))) :=
  ⟨le_refl 1, List.cons_ne_nil _ _,
    train_runs_T_steps [[1]] 1 1 1 1 1 (1 / 2) (fun _ _ _ => 1)
      (le_refl 1) (le_refl 1) (le_refl 1) (List.cons_ne_nil _ _)
      (by simp)⟩

/-- C7: with initial `sigma > 0`, a non-empty sample matrix and
`num_passes ≥ 1`, the decayed sigma `decay_function(sigma, t, T)` used at
every training step is strictly positive, so the Gaussian denominator
`d = 2 * pi * sigma_t * sigma_t` computed by `update` is nonzero at every
step: the `sigma = 0` division-by-zero degeneracy is unreachable during
training. -/
theorem decayed_sigma_positive (sigma : ℝ) (pixel_mat : List (List ℝ))
    (num_passes : ℕ) (hσ : 0 < sigma) (hne : pixel_mat ≠ [])
    (hp : 1 ≤ num_passes) :
    ∀ t : ℕ,
      0 < decay_function sigma t (num_passes * pixel_mat.length)
      ∧ 2 * Real.pi * decay_function sigma t (num_passes * pixel_mat.length)
          * decay_function sigma t (num_passes * pixel_mat.length) ≠ 0 := by
  have hN : 0 < pixel_mat.length := List.length_pos.mpr hne
  have hT : 1 ≤ num_passes * pixel_mat.length := Nat.mul_pos hp hN
  intro t
  have h1 : 0 < decay_function sigma t (num_passes * pixel_mat.length) :=
    decay_pos hσ hT
  refine ⟨h1, ne_of_gt ?_⟩
  have hπ : (0 : ℝ) < 2 * Real.pi := by positivity
  exact mul_pos (mul_pos hπ h1) h1

/-- Witness for C7 with `sigma = 1`, a one-row matrix and one pass. -/
theorem decayed_sigma_positive_witness :
    (0 : ℝ) < 1 ∧ ([[1]] : List (List ℝ)) ≠ [] ∧
      (∀ t : ℕ,
        0 < decay_function (1 : ℝ) t (1 * ([[1]] : List (List ℝ)).length)
        ∧ 2 * Real.pi * decay_function (1 : ℝ) t (1 * ([[1]] : List (List ℝ)).length)
            * decay_function (1 : ℝ) t (1 * ([[1]] : List (List ℝ)).length) ≠ 0) :=
  ⟨one_pos, List.cons_ne_nil _ _,
    decayed_sigma_positive 1 [[1]] 1 one_pos (List.cons_ne_nil _ _) (le_refl 1)⟩

/-- C4 (amended): `train_som` performs NO validation.  With `num_passes = 0`
(or any non-positive value, for which `np.arange` is equally empty) or an
empty sample matrix, the loop body never runs and the randomly initialized,
normalized grid is silently returned — no configuration error is raised. -/
theorem train_no_validation (pixel_mat : List (List ℝ))
    (x_neurons y_neurons num_passes : ℕ) (sigma learning_rate : ℝ)
    (rand : ℕ → ℕ → ℕ → ℝ) (h : num_passes = 0 ∨ pixel_mat = []) :
    train_som pixel_mat x_neurons y_neurons num_passes sigma learning_rate rand
      = some (normalizeGrid (initGrid x_neurons y_neurons
          ((pixel_mat.headD []).length) rand)) := by
  rcases h with h | h <;> subst h <;> simp [train_som, trainLoop]

/-- Witness for the amended C4 at `num_passes = 0` on a one-row matrix. -/
theorem train_no_validation_witness :
    ((0 : ℕ) = 0 ∨ ([[1]] : List (List ℝ)) = []) ∧
      train_som [[1]] 1 1 0 1 (1 / 2) (fun _ _ _ => 1)
        = some (normalizeGrid (initGrid 1 1
            (([[1]] : List (List ℝ)).headD []).length (fun _ _ _ => 1))) :=
  ⟨Or.inl rfl,
    train_no_validation [[1]] 1 1 0 1 (1 / 2) (fun _ _ _ => 1) (Or.inl rfl)⟩

/-- Counterexample to C4 as stated: `train_som` with `num_passes = 0` on a
non-empty matrix, and `train_som` on an empty matrix, both return a grid
produced by zero training steps instead of raising a configuration error. -/
theorem train_zero_passes_returns_grid :
    train_som ([[1], [0]] : List (List ℝ)) 1 1 0 1 (1 / 2) (fun _ _ _ => 1)
        = some (normalizeGrid (initGrid 1 1 1 (fun _ _ _ => 1)))
    ∧ train_som ([] : List (List ℝ)) 2 3 5 1 (1 / 2) (fun _ _ _ => 1)
        = some (normalizeGrid (initGrid 2 3 0 (fun _ _ _ => 1))) := by
  constructor <;> simp [train_som, trainLoop]

section FrameEffects

/-- A heap of 3-D float arrays, addressed by index.  The numpy calls that
`winner` and `update` perform on the grid — `np.subtract(sample, weights)`,
`sample - weights`, and `weights + np.einsum(...)` — all allocate fresh
arrays (no `out=` argument and no in-place operator appears in the source),
so each is modelled as an append of a new cell; `argmin`/`unravel_index`
return scalars and tuples and the 2-D kernels (`ax`, `ay`, `g`) never alias
the grid.  Mutation of the grid would show up here as a write to its cell. -/
abbrev Heap := List (Grid ℝ)

/-- The array `np.subtract(sample, weights)` (and `sample - weights`): the
sample broadcast-subtracted from every prototype of the grid. -/
noncomputable def sub3 (sample : List ℝ) (w : Grid ℝ) : Grid ℝ :=
  w.map fun row => row.map fun p => bsub sample p

/-- Heap semantics of `winner(sample, weights)` with the grid held at
address `wa`: the subtraction result is a fresh cell, the activation map,
`argmin` and `unravel_index` produce non-array values, and nothing is ever
written to `wa`. -/
noncomputable def winnerH (h : Heap) (sample : List ℝ) (wa : ℕ) :
    Heap × (ℕ × ℕ) :=
  let w := nthD h wa []
  (h ++ [sub3 sample w], winnerCoords sample w)

/-- Heap semantics of `update(...)` with the grid held at address `wa`:
`sample - weights` allocates a fresh cell, and
`weights + np.einsum('ij, ijk->ijk', g, sample - weights)` allocates the
result `new_weights` in another fresh cell, whose address is returned. -/
noncomputable def updateH (h : Heap) (sample : List ℝ) (wa : ℕ) (wc : ℕ × ℕ)
    (sigma learning_rate : ℝ) (x_mesh y_mesh : ℕ → ℕ → ℝ) : Heap × ℕ :=
  let w := nthD h wa []
  let h1 := h ++ [sub3 sample w]
  (h1 ++ [update sample w wc sigma learning_rate x_mesh y_mesh], h1.length)

/-- Heap semantics of the Cluster Assigner's per-row search: one `winnerH`
call per row, all against the same grid address. -/
noncomputable def clusterH (wa : ℕ) : Heap → List (List ℝ) → Heap × List (ℕ × ℕ)
  | h, [] => (h, [])
  | h, r :: rs =>
    let s1 := winnerH h r wa
    let s2 := clusterH wa s1.1 rs
    (s2.1, s1.2 :: s2.2)

lemma winnerH_preserves (h : Heap) (sample : List ℝ) (wa : ℕ) :
    ∀ a, a < h.length → nthD (winnerH h sample wa).1 a [] = nthD h a [] := by
  intro a ha
  exact nthD_append_left h _ [] a ha

lemma clusterH_preserves :
    ∀ (pm : List (List ℝ)) (h : Heap) (wa a : ℕ), a < h.length →
      nthD (clusterH wa h pm).1 a [] = nthD h a [] := by
  intro pm
  induction pm with
  | nil => intro h wa a _; rfl
  | cons r rs ih =>
    intro h wa a ha
    have h1 : (winnerH h r wa).1 = h ++ [sub3 r (nthD h wa [])] := rfl
    have hlen : a < (winnerH h r wa).1.length := by
      rw [h1, List.length_append]
      exact Nat.lt_of_lt_of_le ha (Nat.le_add_right _ _)
    calc nthD (clusterH wa (winnerH h r wa).1 rs).1 a []
        = nthD (winnerH h r wa).1 a [] := ih (winnerH h r wa).1 wa a hlen
      _ = nthD h a [] := winnerH_preserves h r wa a ha

/-- C9: `winner` and the Cluster Assigner never write to the grid's heap
cell (all pre-existing cells are preserved, and the returned coordinates are
those of the pure functions), and `update` leaves its input grid
bit-identical, returning a freshly allocated grid — at a new address —
holding the pure `update` result. -/
theorem grid_never_mutated (h : Heap) (sample : List ℝ) (wa : ℕ)
    (wc : ℕ × ℕ) (sigma lr : ℝ) (x_mesh y_mesh : ℕ → ℕ → ℝ)
    (pm : List (List ℝ)) (hwa : wa < h.length) :
    (∀ a, a < h.length → nthD (winnerH h sample wa).1 a [] = nthD h a []) ∧
    (winnerH h sample wa).2 = winnerCoords sample (nthD h wa []) ∧
    (∀ a, a < h.length →
      nthD (updateH h sample wa wc sigma lr x_mesh y_mesh).1 a []
        = nthD h a []) ∧
    (updateH h sample wa wc sigma lr x_mesh y_mesh).2 ≠ wa ∧
    nthD (updateH h sample wa wc sigma lr x_mesh y_mesh).1
        (updateH h sample wa wc sigma lr x_mesh y_mesh).2 []
      = update sample (nthD h wa []) wc sigma lr x_mesh y_mesh ∧
    (∀ a, a < h.length → nthD (clusterH wa h pm).1 a [] = nthD h a []) := by
  refine ⟨winnerH_preserves h sample wa, rfl, ?_, ?_, ?_,
    fun a ha => clusterH_preserves pm h wa a ha⟩
  · intro a ha
    have h1 : a < (h ++ [sub3 sample (nthD h wa [])]).length := by
      rw [List.length_append]
      exact Nat.lt_of_lt_of_le ha (Nat.le_add_right _ _)
    calc nthD (updateH h sample wa wc sigma lr x_mesh y_mesh).1 a []
        = nthD (h ++ [sub3 sample (nthD h wa [])]) a [] :=
          nthD_append_left _ _ [] a h1
      _ = nthD h a [] := nthD_append_left h _ [] a ha
  · show (h ++ [sub3 sample (nthD h wa [])]).length ≠ wa
    rw [List.length_append]
    omega
  · show nthD ((h ++ [sub3 sample (nthD h wa [])])
        ++ [update sample (nthD h wa []) wc sigma lr x_mesh y_mesh])
        ((h ++ [sub3 sample (nthD h wa [])]).length) []
      = update sample (nthD h wa []) wc sigma lr x_mesh y_mesh
    have := nthD_append_right (h ++ [sub3 sample (nthD h wa [])])
      [update sample (nthD h wa []) wc sigma lr x_mesh y_mesh] [] 0
    simpa using this

/-- Witness for C9 on a one-cell heap holding the grid `[[[1]]]`. -/
theorem grid_never_mutated_witness :
    (0 : ℕ) < ([[[[1]]]] : Heap).length ∧
      ((∀ a, a < ([[[[1]]]] : Heap).length →
        nthD (winnerH [[[[1]]]] [2] 0).1 a [] = nthD ([[[[1]]]] : Heap) a []) ∧
      (winnerH [[[[1]]]] [2] 0).2 = winnerCoords [2] (nthD ([[[[1]]]] : Heap) 0 []) ∧
      (∀ a, a < ([[[[1]]]] : Heap).length →
        nthD (updateH [[[[1]]]] [2] 0 (0, 0) 1 1 xMeshStd yMeshStd).1 a []
          = nthD ([[[[1]]]] : Heap) a []) ∧
      (updateH [[[[1]]]] [2] 0 (0, 0) 1 1 xMeshStd yMeshStd).2 ≠ 0 ∧
      nthD (updateH [[[[1]]]] [2] 0 (0, 0) 1 1 xMeshStd yMeshStd).1
          (updateH [[[[1]]]] [2] 0 (0, 0) 1 1 xMeshStd yMeshStd).2 []
        = update [2] (nthD ([[[[1]]]] : Heap) 0 []) (0, 0) 1 1 xMeshStd yMeshStd ∧
      (∀ a, a < ([[[[1]]]] : Heap).length →
        nthD (clusterH 0 [[[[1]]]] [[2]]).1 a [] = nthD ([[[[1]]]] : Heap) a [])) :=
  ⟨Nat.one_pos,
    grid_never_mutated [[[[1]]]] [2] 0 (0, 0) 1 1 xMeshStd yMeshStd [[2]]
      Nat.one_pos⟩
